import Mathlib

/-!
Shallow embedding of the two-stage motion-planning pipeline of this
repository: `src/path_planner.py` (A*-style grid search over a 3D lattice)
and `src/trajectory_generator.py` (clamped cubic-spline trajectory fitter).

Real-valued coordinates are modelled as rationals.  The source computes
Euclidean distances with `math.sqrt` and uses them in two distinct ways:

* in order comparisons against the step size (`get_dist(...) < step_size`):
  these are embedded in the equivalent squared form, since for `d ≥ 0`
  we have `sqrt d < s ↔ (0 < s ∧ d < s^2)`;
* in the accumulated `g`/`h` cost values, which only influence the
  priority order of the open list: these are embedded through an explicit
  parameter `sqrtQ : ℚ → ℚ` standing for the value of `math.sqrt`, and the
  theorems below hold for every choice of `sqrtQ`.

`heapq` is embedded as a priority queue on a plain list whose pop operation
extracts a node of minimal `f`; among equal `f` values the binary heap's
extraction order is internal to `heapq`, and no theorem below depends on
which minimal node is extracted.
-/

set_option allowUnsafeReducibility true

attribute [semireducible] Rat.inv Rat.mul Rat.add Rat.sub Rat.div Rat.neg

/-- A 3D point, as the coordinate triples used throughout both source files. -/
abbrev Point : Type := ℚ × ℚ × ℚ

/-- Squared Euclidean distance.  `get_dist` in `path_planner.py` is
`math.sqrt` of this quantity. -/
def get_dist_sq (p q : Point) : ℚ :=
  (p.1 - q.1) * (p.1 - q.1) + (p.2.1 - q.2.1) * (p.2.1 - q.2.1)
    + (p.2.2 - q.2.2) * (p.2.2 - q.2.2)

/-- Round to the nearest integer, ties to the even integer: the rounding
mode of Python's builtin `round`. -/
def roundHalfEven (q : ℚ) : ℤ :=
  if q - ⌊q⌋ < 1 / 2 then ⌊q⌋
  else if 1 / 2 < q - ⌊q⌋ then ⌊q⌋ + 1
  else if ⌊q⌋ % 2 = 0 then ⌊q⌋ else ⌊q⌋ + 1

/-- Python's `round(q, 1)`: round to one decimal place. -/
def round1 (q : ℚ) : ℚ :=
  (roundHalfEven (10 * q) : ℚ) / 10

/-- `node_key = (round(x, 1), round(y, 1), round(z, 1))` from
`a_star_search`: the discretized closed-set key of a position. -/
def node_key (p : Point) : Point :=
  (round1 p.1, round1 p.2.1, round1 p.2.2)

/-- The 26 movement offsets generated in `a_star_search`: each axis delta
ranges over `[-step_size, 0, step_size]` and the all-zero combination is
skipped. -/
def movements (s : ℚ) : List Point :=
  ([-s, 0, s]).flatMap fun dx =>
    ([-s, 0, s]).flatMap fun dy =>
      ([-s, 0, s]).flatMap fun dz =>
        if dx = 0 ∧ dy = 0 ∧ dz = 0 then [] else [(dx, dy, dz)]

/-- The `Node` class of `path_planner.py`: coordinates, `g`, `h`, `f` and a
parent link.  The start node is created without a parent (`parent=None`),
every other node holds exactly one parent node, so the Python
`Option`-valued parent field is embedded as two constructors. -/
inductive Node : Type where
  | root (x y z g h f : ℚ)
  | child (x y z g h f : ℚ) (parent : Node)
deriving DecidableEq

/-- The `(x, y, z)` coordinates of a node (`Node.get_pos`). -/
def Node.pos : Node → Point
  | .root x y z _ _ _ => (x, y, z)
  | .child x y z _ _ _ _ => (x, y, z)

/-- The `g` field of a node. -/
def Node.g : Node → ℚ
  | .root _ _ _ g _ _ => g
  | .child _ _ _ g _ _ _ => g

/-- The `f` field of a node (set to `g + h` at creation and never
recomputed afterwards). -/
def Node.f : Node → ℚ
  | .root _ _ _ _ _ f => f
  | .child _ _ _ _ _ f _ => f

/-- The backward walk of `reconstruct_path`: positions from the given node
back to the root along parent links. -/
def collect : Node → List Point
  | .root x y z _ _ _ => [(x, y, z)]
  | .child x y z _ _ _ p => (x, y, z) :: collect p

/-- `reconstruct_path`: backtrack parent links and reverse, giving the
start-to-goal waypoint list. -/
def reconstruct_path (n : Node) : List Point :=
  (collect n).reverse

/-- The environment oracle consumed by the planner: the two query
predicates of the external `FlightEnvironment` collaborator. -/
structure Env : Type where
  is_outside : Point → Bool
  is_collide : Point → Bool

/-- A point accepted by both environment checks in the expansion loop. -/
abbrev validPos (env : Env) (p : Point) : Prop :=
  env.is_outside p = false ∧ env.is_collide p = false

/-- The goal-snap test `get_dist(current_node.get_pos(), goal_pos) <
step_size`, in exact squared form (`sqrt d < s ↔ 0 < s ∧ d < s^2`). -/
abbrev goalNear (s : ℚ) (goal p : Point) : Prop :=
  0 < s ∧ get_dist_sq p goal < s * s

/-- The neighbor-expansion block of `a_star_search`: for each movement
offset, skip positions that are outside or colliding, and otherwise create
a child node with `g = parent.g + sqrt(dx²+dy²+dz²)`,
`h = dist(new_pos, goal)` and `f = g + h`. -/
def expand (env : Env) (goal : Point) (s : ℚ) (sqrtQ : ℚ → ℚ) (cur : Node) : List Node :=
  (movements s).filterMap fun d =>
    let np : Point := (cur.pos.1 + d.1, cur.pos.2.1 + d.2.1, cur.pos.2.2 + d.2.2)
    if env.is_outside np then none
    else if env.is_collide np then none
    else
      let gc := cur.g + sqrtQ (d.1 * d.1 + d.2.1 * d.2.1 + d.2.2 * d.2.2)
      let hc := sqrtQ (get_dist_sq np goal)
      some (Node.child np.1 np.2.1 np.2.2 gc hc (gc + hc) cur)

/-- `heapq.heappop`: extract a node of minimal `f` (the ordering defined
by `Node.__lt__`) from the open list, returning it together with the
remaining nodes. -/
def popMin (l : List Node) : Option (Node × List Node) :=
  match l.argmin Node.f with
  | none => none
  | some m => some (m, l.erase m)

/-- The `while open_list:` loop of `a_star_search`, with an explicit fuel
parameter (`none` means the fuel ran out before the loop finished; the
loop itself has no such bound).  On goal-snap the synthesized goal node
keeps `h = 0` and `f = 0` from its construction — the source mutates only
`parent` and `g` after creating it. -/
def aStarLoop (env : Env) (goal : Point) (s : ℚ) (sqrtQ : ℚ → ℚ) :
    Nat → List Node → List Point → Option (List Point)
  | 0, _, _ => none
  | fuel + 1, opn, closed =>
    match popMin opn with
    | none => some []
    | some (cur, rest) =>
      if goalNear s goal cur.pos then
        some (reconstruct_path
          (Node.child goal.1 goal.2.1 goal.2.2
            (cur.g + sqrtQ (get_dist_sq cur.pos goal)) 0 0 cur))
      else if node_key cur.pos ∈ closed then
        aStarLoop env goal s sqrtQ fuel rest closed
      else
        aStarLoop env goal s sqrtQ fuel (rest ++ expand env goal s sqrtQ cur)
          (node_key cur.pos :: closed)

/-- `a_star_search`: initialize the start node (`g = 0`, `h = dist to
goal`, `f = g + h`, no parent) and run the search loop. -/
def a_star_search (env : Env) (start_pos goal_pos : Point) (step_size : ℚ)
    (sqrtQ : ℚ → ℚ) (fuel : Nat) : Option (List Point) :=
  aStarLoop env goal_pos step_size sqrtQ fuel
    [Node.root start_pos.1 start_pos.2.1 start_pos.2.2 0
      (sqrtQ (get_dist_sq start_pos goal_pos))
      (0 + sqrtQ (get_dist_sq start_pos goal_pos))] []

/-- Helper for `dedup`: walk the remaining input, always comparing against
the previous element of the ORIGINAL sequence (this is what the
`np.diff`-based mask in `TrajectoryGenerator.__init__` does), and keep an
element exactly when that distance exceeds `1e-3`
(`dist > 1e-3 ↔ dist² > 1e-6`). -/
def dedupGo (prev : Point) : List Point → List Point
  | [] => []
  | q :: rest =>
    if 1 / 1000000 < get_dist_sq prev q then q :: dedupGo q rest
    else dedupGo q rest

/-- The deduplication preprocessing of `TrajectoryGenerator.__init__`:
`mask = concatenate(([True], dists > 1e-3)); path = raw_path[mask]`. -/
def dedup : List Point → List Point
  | [] => []
  | p :: rest => p :: dedupGo p rest

/-- `np.cumsum` on a list of rationals. -/
def cumsumFrom (acc : ℚ) : List ℚ → List ℚ
  | [] => []
  | x :: xs => (acc + x) :: cumsumFrom (acc + x) xs

/-- `np.cumsum`. -/
def cumsum (l : List ℚ) : List ℚ :=
  cumsumFrom 0 l

/-- `TrajectoryGenerator._calculate_time_knots`: consecutive distances
(floored at `1e-6`), divided by the average speed, cumulatively summed,
with a leading 0 (`np.hstack(([0], np.cumsum(times)))`). -/
def calcKnots (sqrtQ : ℚ → ℚ) (p : List Point) (speed : ℚ) : List ℚ :=
  0 :: cumsum (((p.zip p.tail).map fun pq =>
    max (sqrtQ (get_dist_sq pq.1 pq.2)) (1 / 1000000)).map fun d => d / speed)

/-- The state built by `TrajectoryGenerator.__init__`: the deduplicated
path, the average speed and the time knots (`[0]` in the degenerate
fewer-than-two-waypoints branch, which returns before fitting splines). -/
structure TrajectoryGenerator : Type where
  path : List Point
  avg_speed : ℚ
  time_knots : List ℚ

/-- `TrajectoryGenerator.__init__` (the Python constructor assigns
`avg_speed` only on the non-degenerate branch; the field is unused on the
degenerate one). -/
def mkTrajectoryGenerator (sqrtQ : ℚ → ℚ) (path : List Point)
    (average_speed : ℚ) : TrajectoryGenerator :=
  let p := dedup path
  if p.length < 2 then
    { path := p, avg_speed := average_speed, time_knots := [0] }
  else
    { path := p, avg_speed := average_speed,
      time_knots := calcKnots sqrtQ p average_speed }

/-- Consecutive differences (`np.diff`) of a list of rationals. -/
def diffs (l : List ℚ) : List ℚ :=
  (l.zip l.tail).map fun p => p.2 - p.1

/-- Forward elimination of the Thomas algorithm for a tridiagonal system:
each row is `(a, b, c, d)` (sub-, main-, super-diagonal and right-hand
side); the accumulators are the previous modified super-diagonal and
right-hand side entries. -/
def thomasFwd : List (ℚ × ℚ × ℚ × ℚ) → ℚ → ℚ → List (ℚ × ℚ)
  | [], _, _ => []
  | (a, b, c, d) :: rest, cp, dp =>
    ((c / (b - a * cp)), ((d - a * dp) / (b - a * cp)))
      :: thomasFwd rest (c / (b - a * cp)) ((d - a * dp) / (b - a * cp))

/-- Back substitution of the Thomas algorithm, on the reversed output of
the forward pass. -/
def thomasBack : List (ℚ × ℚ) → ℚ → List ℚ
  | [], _ => []
  | (cp, dp) :: rest, xnext => (dp - cp * xnext) :: thomasBack rest (dp - cp * xnext)

/-- Modelled from the spec: the knot slopes of scipy's
`CubicSpline(ts, ys, bc_type='clamped')`, which is not part of this
repository.  The first derivatives `m₀ … mₙ` of the piecewise-cubic
C²-continuous interpolant with clamped ends satisfy `m₀ = mₙ = 0` and, at
each interior knot `i`, the standard continuity equation
`mᵢ₋₁/hᵢ₋₁ + 2mᵢ(1/hᵢ₋₁ + 1/hᵢ) + mᵢ₊₁/hᵢ = 3(δᵢ₋₁/hᵢ₋₁ + δᵢ/hᵢ)`
with `hᵢ = tᵢ₊₁ - tᵢ` and `δᵢ = (yᵢ₊₁ - yᵢ)/hᵢ`, solved here by the
Thomas algorithm. -/
def slopes (ts ys : List ℚ) : List ℚ :=
  let hs := diffs ts
  let ds := ((diffs ys).zip hs).map fun p => p.1 / p.2
  let hd := hs.zip ds
  let rows := (hd.zip hd.tail).map fun p =>
    (1 / p.1.1, 2 * (1 / p.1.1 + 1 / p.2.1), 1 / p.2.1,
      3 * (p.1.2 / p.1.1 + p.2.2 / p.2.1))
  0 :: (thomasBack (thomasFwd rows 0 0).reverse 0).reverse ++ [0]

/-- The cubic Hermite basis combination on one segment, in terms of the
segment width `h` and the normalized coordinate `u`. -/
def hermiteU (y0 m0 y1 m1 h u : ℚ) : ℚ :=
  y0 * (2 * u * u * u - 3 * u * u + 1) + y1 * (-2 * u * u * u + 3 * u * u)
    + m0 * h * (u * u * u - 2 * u * u + u) + m1 * h * (u * u * u - u * u)

/-- Evaluation of the cubic Hermite segment with endpoint values `y0, y1`
and endpoint slopes `m0, m1` over `[t0, t1]`. -/
def hermiteEval (t0 y0 m0 t1 y1 m1 t : ℚ) : ℚ :=
  hermiteU y0 m0 y1 m1 (t1 - t0) ((t - t0) / (t1 - t0))

/-- Piecewise evaluation over the knot segments: each list entry is
`(knot time, knot value, knot slope)`; the segment containing `t` is
located by walking the knots in order (times past the last knot use the
last segment, matching extrapolation by the final polynomial). -/
def evalSegs : List (ℚ × ℚ × ℚ) → ℚ → ℚ
  | [], _ => 0
  | [a], _ => a.2.1
  | a :: b :: rest, t =>
    if t < b.1 ∨ rest = [] then hermiteEval a.1 a.2.1 a.2.2 b.1 b.2.1 b.2.2 t
    else evalSegs (b :: rest) t

/-- The `(time, value, slope)` triples of the spline knots. -/
def zipTriples (ts ys ms : List ℚ) : List (ℚ × ℚ × ℚ) :=
  ts.zip (ys.zip ms)

/-- Modelled from the spec: scipy's `CubicSpline(ts, ys, bc_type='clamped')`
as an evaluable function — the clamped piecewise-cubic interpolant through
the `(ts i, ys i)` pairs. -/
def CubicSpline_clamped (ts ys : List ℚ) : ℚ → ℚ :=
  evalSegs (zipTriples ts ys (slopes ts ys))

/-- `self.cs_x` of `TrajectoryGenerator`. -/
def cs_x (tg : TrajectoryGenerator) : ℚ → ℚ :=
  CubicSpline_clamped tg.time_knots (tg.path.map fun p => p.1)

/-- `self.cs_y` of `TrajectoryGenerator`. -/
def cs_y (tg : TrajectoryGenerator) : ℚ → ℚ :=
  CubicSpline_clamped tg.time_knots (tg.path.map fun p => p.2.1)

/-- `self.cs_z` of `TrajectoryGenerator`. -/
def cs_z (tg : TrajectoryGenerator) : ℚ → ℚ :=
  CubicSpline_clamped tg.time_knots (tg.path.map fun p => p.2.2)

/-- `np.arange(start, stop, step)` for rationals: the
`⌈(stop - start)/step⌉` values `start + k·step` (faithful for positive
`step`, the only way `solve` calls it). -/
def arangeQ (start stop step : ℚ) : List ℚ :=
  (List.range (⌈(stop - start) / step⌉).toNat).map fun k : ℕ => start + (k : ℚ) * step

/-- `TrajectoryGenerator.solve(dt)`: on fewer than two waypoints return
four empty arrays; otherwise sample `arange(0, total_time, dt)`, append
`total_time` whenever the last raw sample falls short of it, and evaluate
the three axis splines.  `none` embeds the raising of a Python exception
(`time_knots[-1]` or `t_eval[-1]` on an empty array). -/
def TrajectoryGenerator.solve (tg : TrajectoryGenerator) (dt : ℚ) :
    Option (List ℚ × List ℚ × List ℚ × List ℚ) :=
  if tg.path.length < 2 then some ([], [], [], [])
  else
    match tg.time_knots.getLast? with
    | none => none
    | some total =>
      match (arangeQ 0 total dt).getLast? with
      | none => none
      | some last =>
        let t_eval := if last < total then arangeQ 0 total dt ++ [total]
          else arangeQ 0 total dt
        some (t_eval, t_eval.map (cs_x tg), t_eval.map (cs_y tg), t_eval.map (cs_z tg))

/-- The key function the specification describes for the closed set:
coordinates rounded to the lattice resolution, i.e. to the nearest
multiple of the configured step size. -/
def roundToRes (s : ℚ) (p : Point) : Point :=
  (s * round (p.1 / s), s * round (p.2.1 / s), s * round (p.2.2 / s))

/-- One search step from `p` to `q`: the offset is one of the generated
movement offsets. -/
def stepRel (s : ℚ) (p q : Point) : Prop :=
  ∃ d ∈ movements s, q = (p.1 + d.1, p.2.1 + d.2.1, p.2.2 + d.2.2)

/-- A well-formed partial path: starts at the start position, all later
waypoints pass both environment checks, and consecutive waypoints differ
by a movement offset. -/
def pathOK (env : Env) (start : Point) (s : ℚ) (l : List Point) : Prop :=
  l.head? = some start ∧ (∀ p ∈ l.tail, validPos env p) ∧ l.Chain' (stepRel s)

/-- The open-list invariant: the parent chain of a node reconstructs to a
well-formed partial path ending at the node's own position. -/
def nodeOK (env : Env) (start : Point) (s : ℚ) (n : Node) : Prop :=
  pathOK env start s (reconstruct_path n) ∧
    (reconstruct_path n).getLast? = some n.pos

/-- The search's reachable lattice: the start position (pushed unchecked
by the code) together with everything obtainable from it by movement
offsets whose target passes both environment checks.  Every node the
search ever holds in its open list sits at such a position. -/
inductive ReachableFrom (env : Env) (s : ℚ) (start : Point) : Point → Prop where
  | refl : ReachableFrom env s start start
  | step {p q : Point} : ReachableFrom env s start p → stepRel s p q →
      validPos env q → ReachableFrom env s start q

lemma popMin_eq_none {l : List Node} : popMin l = none ↔ l = [] := by
  unfold popMin
  cases hm : l.argmin Node.f with
  | none => simpa using List.argmin_eq_none.mp hm
  | some m =>
    simp only [reduceCtorEq, false_iff]
    intro hl
    rw [hl] at hm
    simp [List.argmin_nil] at hm

lemma popMin_mem {l : List Node} {n : Node} {rest : List Node}
    (h : popMin l = some (n, rest)) : n ∈ l := by
  unfold popMin at h
  cases hm : l.argmin Node.f with
  | none => rw [hm] at h; simp at h
  | some m =>
    rw [hm] at h
    simp only [Option.some.injEq, Prod.mk.injEq] at h
    rw [← h.1]
    exact List.argmin_mem hm

lemma popMin_length {l : List Node} {n : Node} {rest : List Node}
    (h : popMin l = some (n, rest)) : l.length = rest.length + 1 := by
  unfold popMin at h
  cases hm : l.argmin Node.f with
  | none => rw [hm] at h; simp at h
  | some m =>
    rw [hm] at h
    simp only [Option.some.injEq, Prod.mk.injEq] at h
    rw [← h.2]
    exact (List.length_erase_add_one (List.argmin_mem hm)).symm

lemma popMin_subset {l : List Node} {n : Node} {rest : List Node}
    (h : popMin l = some (n, rest)) : ∀ x ∈ rest, x ∈ l := by
  unfold popMin at h
  cases hm : l.argmin Node.f with
  | none => rw [hm] at h; simp at h
  | some m =>
    rw [hm] at h
    simp only [Option.some.injEq, Prod.mk.injEq] at h
    rw [← h.2]
    intro x hx
    exact List.mem_of_mem_erase hx

lemma expand_mem {env : Env} {goal : Point} {s : ℚ} {sqrtQ : ℚ → ℚ}
    {cur n : Node} (h : n ∈ expand env goal s sqrtQ cur) :
    validPos env n.pos ∧ stepRel s cur.pos n.pos ∧
      collect n = n.pos :: collect cur := by
  simp only [expand, List.mem_filterMap] at h
  obtain ⟨d, hd, hfd⟩ := h
  split at hfd
  · simp at hfd
  · split at hfd
    · simp at hfd
    · rename_i h1 h2
      simp only [Option.some.injEq] at hfd
      subst hfd
      refine ⟨⟨by simpa using h1, by simpa using h2⟩, ⟨d, hd, rfl⟩, rfl⟩

lemma nodeOK_child {env : Env} {start goal : Point} {s : ℚ} {sqrtQ : ℚ → ℚ}
    {cur n : Node} (hcur : nodeOK env start s cur)
    (hn : n ∈ expand env goal s sqrtQ cur) : nodeOK env start s n := by
  obtain ⟨hvalid, hstep, hcol⟩ := expand_mem hn
  obtain ⟨⟨hhead, htail, hchain⟩, hlast⟩ := hcur
  have hrp : reconstruct_path n = reconstruct_path cur ++ [n.pos] := by
    rw [reconstruct_path, hcol, List.reverse_cons, reconstruct_path]
  refine ⟨⟨?_, ?_, ?_⟩, ?_⟩
  · rw [hrp, List.head?_append, hhead]
    rfl
  · intro p hp
    obtain ⟨t, ht⟩ : ∃ t, reconstruct_path cur = start :: t := by
      cases hc : reconstruct_path cur with
      | nil => rw [hc] at hhead; simp at hhead
      | cons a t =>
        rw [hc] at hhead
        simp only [List.head?_cons, Option.some.injEq] at hhead
        exact ⟨t, by rw [hhead]⟩
    rw [hrp, ht] at hp
    simp only [List.cons_append, List.tail_cons, List.mem_append,
      List.mem_singleton] at hp
    rcases hp with hp | hp
    · exact htail p (by rw [ht]; simpa using hp)
    · rw [hp]; exact hvalid
  · rw [hrp]
    refine List.chain'_append.mpr ⟨hchain, List.chain'_singleton _, ?_⟩
    intro x hx y hy
    simp only [List.head?_cons, Option.mem_def, Option.some.injEq] at hy
    rw [hlast] at hx
    simp only [Option.mem_def, Option.some.injEq] at hx
    rw [← hx, ← hy]
    exact hstep
  · rw [hrp]
    exact List.getLast?_concat _

lemma nodeOK_root {env : Env} {start : Point} {s : ℚ} {g h f : ℚ} :
    nodeOK env start s (Node.root start.1 start.2.1 start.2.2 g h f) := by
  constructor
  · exact ⟨rfl, by intro p hp; simp [reconstruct_path, collect] at hp, by
      simp [reconstruct_path, collect]⟩
  · rfl

lemma aStarLoop_sound {env : Env} {start goal : Point} {s : ℚ} {sqrtQ : ℚ → ℚ} :
    ∀ (fuel : Nat) (opn : List Node) (closed : List Point) (l : List Point),
      (∀ n ∈ opn, nodeOK env start s n) →
      aStarLoop env goal s sqrtQ fuel opn closed = some l →
      l = [] ∨ ∃ l₀, l = l₀ ++ [goal] ∧ pathOK env start s l₀ := by
  intro fuel
  induction fuel with
  | zero =>
    intro opn closed l _ h
    simp [aStarLoop] at h
  | succ fuel ih =>
    intro opn closed l hinv h
    rw [aStarLoop] at h
    split at h
    · rename_i hp
      simp only [Option.some.injEq] at h
      left
      exact h.symm
    · rename_i cur rest hp
      by_cases hg : goalNear s goal cur.pos
      · rw [if_pos hg] at h
        simp only [Option.some.injEq] at h
        right
        have hcur := hinv cur (popMin_mem hp)
        refine ⟨reconstruct_path cur, ?_, hcur.1⟩
        rw [← h, reconstruct_path, collect, List.reverse_cons]
        rfl
      · rw [if_neg hg] at h
        by_cases hk : node_key cur.pos ∈ closed
        · rw [if_pos hk] at h
          exact ih rest closed l (fun n hn => hinv n (popMin_subset hp n hn)) h
        · rw [if_neg hk] at h
          refine ih _ _ l ?_ h
          intro n hn
          rcases List.mem_append.mp hn with hn | hn
          · exact hinv n (popMin_subset hp n hn)
          · exact nodeOK_child (hinv cur (popMin_mem hp)) hn

lemma movements_mem {s : ℚ} {d : Point} (h : d ∈ movements s) :
    (d.1 = -s ∨ d.1 = 0 ∨ d.1 = s) ∧ (d.2.1 = -s ∨ d.2.1 = 0 ∨ d.2.1 = s) ∧
      (d.2.2 = -s ∨ d.2.2 = 0 ∨ d.2.2 = s) := by
  simp only [movements, List.mem_flatMap, List.mem_cons, List.not_mem_nil,
    or_false] at h
  obtain ⟨dx, hdx, dy, hdy, dz, hdz, hd⟩ := h
  split at hd
  · simp at hd
  · simp only [List.mem_singleton] at hd
    subst hd
    exact ⟨hdx, hdy, hdz⟩

lemma movements_nonzero {s : ℚ} {d : Point} (h : d ∈ movements s) :
    ¬(d.1 = 0 ∧ d.2.1 = 0 ∧ d.2.2 = 0) := by
  simp only [movements, List.mem_flatMap] at h
  obtain ⟨dx, hdx, dy, hdy, dz, hdz, hd⟩ := h
  split at hd
  · simp at hd
  · rename_i hc
    simp only [List.mem_singleton] at hd
    subst hd
    exact hc

lemma stepRel_dist {s : ℚ} {p q : Point} (h : stepRel s p q) :
    get_dist_sq p q = s ^ 2 ∨ get_dist_sq p q = 2 * s ^ 2 ∨
      get_dist_sq p q = 3 * s ^ 2 := by
  obtain ⟨d, hd, rfl⟩ := h
  have hnz := movements_nonzero hd
  obtain ⟨hx, hy, hz⟩ := movements_mem hd
  obtain ⟨dx, dy, dz⟩ := d
  have hdist : get_dist_sq p (p.1 + dx, p.2.1 + dy, p.2.2 + dz)
      = dx ^ 2 + dy ^ 2 + dz ^ 2 := by
    simp only [get_dist_sq]
    ring
  rw [hdist]
  simp only at hx hy hz hnz
  rcases hx with rfl | rfl | rfl <;> rcases hy with rfl | rfl | rfl <;>
    rcases hz with rfl | rfl | rfl <;>
    first
      | exact absurd (And.intro rfl (And.intro rfl rfl)) hnz
      | (left; ring1)
      | (right; left; ring1)
      | (right; right; ring1)

/-- An environment oracle with no boundary and no obstacles. -/
def envFree : Env :=
  ⟨fun _ => false, fun _ => false⟩

/-- An environment oracle reporting every position as colliding. -/
def envCollide : Env :=
  ⟨fun _ => false, fun _ => true⟩

/-- An environment oracle reporting every position as outside the
boundary. -/
def envBlocked : Env :=
  ⟨fun _ => true, fun _ => false⟩

/-- C9: whenever the planner returns a non-empty sequence, that sequence
has at least two elements, its first element is exactly the given start
position and its last element is exactly the given goal position. -/
theorem C9_endpoints_exact {env : Env} {start goal : Point} {s : ℚ}
    {sqrtQ : ℚ → ℚ} {fuel : Nat} {l : List Point}
    (hrun : a_star_search env start goal s sqrtQ fuel = some l)
    (hne : l ≠ []) :
    2 ≤ l.length ∧ l.head? = some start ∧ l.getLast? = some goal := by
  have hsound := aStarLoop_sound fuel _ [] l (by
    intro n hn
    simp only [List.mem_singleton] at hn
    subst hn
    exact nodeOK_root) hrun
  rcases hsound with rfl | ⟨l₀, rfl, hhead, _, _⟩
  · exact absurd rfl hne
  · obtain ⟨t, rfl⟩ : ∃ t, l₀ = start :: t := by
      cases l₀ with
      | nil => simp at hhead
      | cons a t =>
        simp only [List.head?_cons, Option.some.injEq] at hhead
        exact ⟨t, by rw [hhead]⟩
    refine ⟨?_, ?_, List.getLast?_concat _⟩
    · simp only [List.cons_append, List.length_cons, List.length_append,
        List.length_singleton]
      omega
    · simp

/-- C9 witness: a concrete free-space run from (0,0,0) towards
(0,0,1/4) with step 1/2. -/
theorem C9_endpoints_exact_witness :
    2 ≤ ([((0:ℚ), (0:ℚ), (0:ℚ)), ((0:ℚ), (0:ℚ), (1:ℚ)/4)] : List Point).length ∧
      ([((0:ℚ), (0:ℚ), (0:ℚ)), ((0:ℚ), (0:ℚ), (1:ℚ)/4)] : List Point).head? =
        some ((0:ℚ), (0:ℚ), (0:ℚ)) ∧
      ([((0:ℚ), (0:ℚ), (0:ℚ)), ((0:ℚ), (0:ℚ), (1:ℚ)/4)] : List Point).getLast? =
        some ((0:ℚ), (0:ℚ), (1:ℚ)/4) :=
  @C9_endpoints_exact envFree ((0:ℚ), (0:ℚ), (0:ℚ)) ((0:ℚ), (0:ℚ), (1:ℚ)/4)
    ((1:ℚ)/2) id 1 _ (by decide) (by decide)

lemma start_invariant {env : Env} {start goal : Point} {s : ℚ} {sqrtQ : ℚ → ℚ} :
    ∀ n ∈ [Node.root start.1 start.2.1 start.2.2 0
      (sqrtQ (get_dist_sq start goal)) (0 + sqrtQ (get_dist_sq start goal))],
      nodeOK env start s n := by
  intro n hn
  simp only [List.mem_singleton] at hn
  subst hn
  exact nodeOK_root

/-- C1 as stated is false: the planner never submits the start position to
the environment oracle, so a returned path can begin with a colliding
waypoint that is not the goal.  This concrete run in an all-colliding
environment returns the two-waypoint path `[start, goal]` whose first
(non-goal) element collides. -/
theorem C1_start_not_checked_counterexample :
    a_star_search envCollide ((0:ℚ), (0:ℚ), (0:ℚ)) ((0:ℚ), (0:ℚ), (1:ℚ)/4)
        ((1:ℚ)/2) id 1 =
      some [((0:ℚ), (0:ℚ), (0:ℚ)), ((0:ℚ), (0:ℚ), (1:ℚ)/4)] ∧
      envCollide.is_collide ((0:ℚ), (0:ℚ), (0:ℚ)) = true :=
  ⟨by decide, rfl⟩

/-- C1 (amended): every waypoint of a returned path other than the first
(the start position, which the code never checks against the oracle) and
the last (the synthesized goal) satisfies neither `is_outside` nor
`is_collide`. -/
theorem C1_interior_waypoints_valid {env : Env} {start goal : Point} {s : ℚ}
    {sqrtQ : ℚ → ℚ} {fuel : Nat} {l : List Point}
    (hrun : a_star_search env start goal s sqrtQ fuel = some l) :
    ∀ p ∈ (l.drop 1).dropLast, validPos env p := by
  have hsound := aStarLoop_sound fuel _ [] l start_invariant hrun
  rcases hsound with rfl | ⟨l₀, rfl, hhead, htail, _⟩
  · intro p hp
    simp at hp
  · obtain ⟨t, rfl⟩ : ∃ t, l₀ = start :: t := by
      cases l₀ with
      | nil => simp at hhead
      | cons a t =>
        simp only [List.head?_cons, Option.some.injEq] at hhead
        exact ⟨t, by rw [hhead]⟩
    intro p hp
    have he : (((start :: t) ++ [goal]).drop 1).dropLast = t := by
      simp only [List.cons_append, List.drop_one, List.tail_cons]
      exact List.dropLast_concat
    rw [he] at hp
    exact htail p hp

/-- C1 witness: in a free environment the three-waypoint run has its one
interior waypoint pass both checks. -/
theorem C1_interior_waypoints_valid_witness :
    validPos envFree ((0:ℚ), (0:ℚ), (1:ℚ)/2) :=
  @C1_interior_waypoints_valid envFree ((0:ℚ), (0:ℚ), (0:ℚ))
    ((0:ℚ), (0:ℚ), (9:ℚ)/10) ((1:ℚ)/2) id 2
    [((0:ℚ), (0:ℚ), (0:ℚ)), ((0:ℚ), (0:ℚ), (1:ℚ)/2), ((0:ℚ), (0:ℚ), (9:ℚ)/10)]
    (by decide) ((0:ℚ), (0:ℚ), (1:ℚ)/2) (by decide)

/-- C8: in every returned path each consecutive pair of waypoints, except
possibly the final goal-snap pair, is separated by one of the step-offset
magnitudes `step`, `step·√2`, `step·√3` — stated on squared distances. -/
theorem C8_consecutive_step_magnitudes {env : Env} {start goal : Point}
    {s : ℚ} {sqrtQ : ℚ → ℚ} {fuel : Nat} {l : List Point} (hs : 0 < s)
    (hrun : a_star_search env start goal s sqrtQ fuel = some l) :
    ∀ (i : ℕ) (hi : i + 2 < l.length),
      get_dist_sq (l.get ⟨i, by omega⟩) (l.get ⟨i + 1, by omega⟩) = s ^ 2 ∨
      get_dist_sq (l.get ⟨i, by omega⟩) (l.get ⟨i + 1, by omega⟩) = 2 * s ^ 2 ∨
      get_dist_sq (l.get ⟨i, by omega⟩) (l.get ⟨i + 1, by omega⟩) = 3 * s ^ 2 := by
  have hsound := aStarLoop_sound fuel _ [] l start_invariant hrun
  intro i hi
  rcases hsound with rfl | ⟨l₀, rfl, _, _, hchain⟩
  · simp at hi
  · have hi' : i + 1 < l₀.length := by
      simp only [List.length_append, List.length_singleton] at hi
      omega
    have e1 : (l₀ ++ [goal]).get ⟨i, by omega⟩ = l₀.get ⟨i, by omega⟩ :=
      List.get_append i (by omega)
    have e2 : (l₀ ++ [goal]).get ⟨i + 1, by omega⟩ = l₀.get ⟨i + 1, hi'⟩ :=
      List.get_append (i + 1) hi'
    rw [e1, e2]
    exact stepRel_dist (List.chain'_iff_get.mp hchain i (by omega))

/-- C8 witness: the first pair of the concrete three-waypoint run is one
step apart. -/
theorem C8_consecutive_step_magnitudes_witness :
    get_dist_sq (([((0:ℚ), (0:ℚ), (0:ℚ)), ((0:ℚ), (0:ℚ), (1:ℚ)/2),
        ((0:ℚ), (0:ℚ), (9:ℚ)/10)] : List Point).get ⟨0, by decide⟩)
      (([((0:ℚ), (0:ℚ), (0:ℚ)), ((0:ℚ), (0:ℚ), (1:ℚ)/2),
        ((0:ℚ), (0:ℚ), (9:ℚ)/10)] : List Point).get ⟨1, by decide⟩) = ((1:ℚ)/2) ^ 2 ∨
    get_dist_sq (([((0:ℚ), (0:ℚ), (0:ℚ)), ((0:ℚ), (0:ℚ), (1:ℚ)/2),
        ((0:ℚ), (0:ℚ), (9:ℚ)/10)] : List Point).get ⟨0, by decide⟩)
      (([((0:ℚ), (0:ℚ), (0:ℚ)), ((0:ℚ), (0:ℚ), (1:ℚ)/2),
        ((0:ℚ), (0:ℚ), (9:ℚ)/10)] : List Point).get ⟨1, by decide⟩) = 2 * ((1:ℚ)/2) ^ 2 ∨
    get_dist_sq (([((0:ℚ), (0:ℚ), (0:ℚ)), ((0:ℚ), (0:ℚ), (1:ℚ)/2),
        ((0:ℚ), (0:ℚ), (9:ℚ)/10)] : List Point).get ⟨0, by decide⟩)
      (([((0:ℚ), (0:ℚ), (0:ℚ)), ((0:ℚ), (0:ℚ), (1:ℚ)/2),
        ((0:ℚ), (0:ℚ), (9:ℚ)/10)] : List Point).get ⟨1, by decide⟩) = 3 * ((1:ℚ)/2) ^ 2 :=
  @C8_consecutive_step_magnitudes envFree ((0:ℚ), (0:ℚ), (0:ℚ))
    ((0:ℚ), (0:ℚ), (9:ℚ)/10) ((1:ℚ)/2) id 2 _ (by decide) (by decide) 0 (by decide)

lemma closed_insert_card {K : Finset Point} {closed : List Point} {key : Point}
    (hK : key ∈ K) (hnc : key ∉ closed) :
    (K.filter fun k => k ∉ (key :: closed)).card + 1 =
      (K.filter fun k => k ∉ closed).card := by
  have he : (K.filter fun k => k ∉ (key :: closed)) =
      (K.filter fun k => k ∉ closed).erase key := by
    ext x
    simp only [Finset.mem_filter, Finset.mem_erase, List.mem_cons, not_or]
    tauto
  rw [he, Finset.card_erase_of_mem (Finset.mem_filter.mpr ⟨hK, hnc⟩)]
  have hpos : 0 < (K.filter fun k => k ∉ closed).card :=
    Finset.card_pos.mpr ⟨key, Finset.mem_filter.mpr ⟨hK, hnc⟩⟩
  omega

lemma flatMap_length_le {α β : Type} (l : List α) (f : α → List β) (c : ℕ)
    (h : ∀ a ∈ l, (f a).length ≤ c) : (l.flatMap f).length ≤ c * l.length := by
  induction l with
  | nil => simp
  | cons a as ih =>
    simp only [List.flatMap_cons, List.length_append, List.length_cons,
      Nat.mul_succ]
    have h1 := h a (List.mem_cons_self a as)
    have h2 := ih fun x hx => h x (List.mem_cons_of_mem a hx)
    omega

lemma movements_length {s : ℚ} : (movements s).length ≤ 27 := by
  have h1 : ∀ dx dy : ℚ, (([-s, 0, s]).flatMap fun dz =>
      if dx = 0 ∧ dy = 0 ∧ dz = 0 then [] else [(dx, dy, dz)]).length ≤ 3 := by
    intro dx dy
    have := flatMap_length_le ([-s, 0, s])
      (fun dz => if dx = 0 ∧ dy = 0 ∧ dz = 0 then ([] : List Point)
        else [(dx, dy, dz)]) 1
      (by intro a _; by_cases hc : dx = 0 ∧ dy = 0 ∧ a = 0 <;> simp [hc])
    simpa using this
  have h2 : ∀ dx : ℚ, (([-s, 0, s]).flatMap fun dy =>
      ([-s, 0, s]).flatMap fun dz =>
        if dx = 0 ∧ dy = 0 ∧ dz = 0 then [] else [(dx, dy, dz)]).length ≤ 9 := by
    intro dx
    have := flatMap_length_le ([-s, 0, s])
      (fun dy => ([-s, 0, s]).flatMap fun dz =>
        if dx = 0 ∧ dy = 0 ∧ dz = 0 then ([] : List Point)
          else [(dx, dy, dz)]) 3 (fun a _ => h1 dx a)
    simpa using this
  have h3 := flatMap_length_le ([-s, 0, s])
    (fun dx => ([-s, 0, s]).flatMap fun dy =>
      ([-s, 0, s]).flatMap fun dz =>
        if dx = 0 ∧ dy = 0 ∧ dz = 0 then ([] : List Point)
          else [(dx, dy, dz)]) 9 (fun a _ => h2 a)
  simpa [movements] using h3

lemma aStarLoop_empties {env : Env} {goal start : Point} {s : ℚ}
    {sqrtQ : ℚ → ℚ} (K : Finset Point)
    (hK : ∀ p, ReachableFrom env s start p → node_key p ∈ K)
    (hunreach : ∀ p, ReachableFrom env s start p → ¬goalNear s goal p) :
    ∀ (fuel : Nat) (opn : List Node) (closed : List Point),
      (∀ n ∈ opn, ReachableFrom env s start n.pos) →
      27 * (K.filter fun k => k ∉ closed).card + opn.length < fuel →
      aStarLoop env goal s sqrtQ fuel opn closed = some [] := by
  intro fuel
  induction fuel with
  | zero =>
    intro opn closed _ hm
    omega
  | succ fuel ih =>
    intro opn closed hinv hm
    rw [aStarLoop]
    split
    · rfl
    · rename_i cur rest hp
      have hreach := hinv cur (popMin_mem hp)
      have hkey := hK _ hreach
      rw [if_neg (hunreach _ hreach)]
      have hlen := popMin_length hp
      by_cases hk : node_key cur.pos ∈ closed
      · rw [if_pos hk]
        apply ih rest closed (fun n hn => hinv n (popMin_subset hp n hn))
        omega
      · rw [if_neg hk]
        apply ih
        · intro n hn
          rcases List.mem_append.mp hn with hn | hn
          · exact hinv n (popMin_subset hp n hn)
          · obtain ⟨hv, hstep, _⟩ := expand_mem hn
            exact ReachableFrom.step hreach hstep hv
        · have hc := closed_insert_card hkey hk
          have he : (expand env goal s sqrtQ cur).length ≤ 27 :=
            le_trans (List.length_filterMap_le _ _) movements_length
          rw [List.length_append]
          omega

/-- C2: in an environment whose reachable lattice (the start together
with everything obtainable from it by oracle-valid movement steps) has
finitely many closed-set keys — the bounded-boundary hypothesis — and in
which the goal is unreachable, meaning no reachable point passes the
goal-snap test, the search loop exhausts the open set within
`27·|K| + 2` iterations and returns the empty path.  Oracle-valid points
near the goal that are not reachable from the start (a sealed goal,
disconnected valid regions) are permitted. -/
theorem C2_unreachable_terminates_empty {env : Env} {start goal : Point}
    {s : ℚ} {sqrtQ : ℚ → ℚ} (K : Finset Point)
    (hK : ∀ p, ReachableFrom env s start p → node_key p ∈ K)
    (hunreach : ∀ p, ReachableFrom env s start p → ¬goalNear s goal p) :
    a_star_search env start goal s sqrtQ (27 * K.card + 2) = some [] := by
  apply aStarLoop_empties K hK hunreach
  · intro n hn
    simp only [List.mem_singleton] at hn
    subst hn
    exact ReachableFrom.refl
  · have he : (K.filter fun k => k ∉ ([] : List Point)) = K := by
      apply Finset.filter_true_of_mem
      intro x _
      simp
    rw [he]
    simp

/-- C2 witness: every position outside the boundary, start `(0,0,0)`,
goal `(5,5,5)` far beyond one step; the reachable lattice is the start
alone. -/
theorem C2_unreachable_terminates_empty_witness :
    a_star_search envBlocked ((0:ℚ), (0:ℚ), (0:ℚ)) ((5:ℚ), (5:ℚ), (5:ℚ))
      ((1:ℚ)/2) id
      (27 * ({node_key ((0:ℚ), (0:ℚ), (0:ℚ))} : Finset Point).card + 2) =
      some [] :=
  C2_unreachable_terminates_empty {node_key ((0:ℚ), (0:ℚ), (0:ℚ))}
    (fun p hp => by
      cases hp with
      | refl => simp
      | step hr hst hv => exact absurd hv.1 (by simp [envBlocked]))
    (fun p hp => by
      cases hp with
      | refl => decide
      | step hr hst hv => exact absurd hv.1 (by simp [envBlocked]))

/-- C5: the planner performs no validation of a non-positive step size.
With `step_size = 0` every generated movement is the skipped all-zero
offset, so the search silently exhausts the open set and returns an empty
path — no precondition-violation error is raised anywhere. -/
theorem C5_no_validation_step_zero :
    a_star_search envFree ((0:ℚ), (0:ℚ), (0:ℚ)) ((5:ℚ), (5:ℚ), (5:ℚ)) 0 id 2 =
      some [] := by
  decide

/-- C6 as stated is false: the retention mask is computed from distances
between consecutive ORIGINAL waypoints, so after a dropped point the two
retained neighbours can be within the threshold.  Here the retained pair
`(0,0,0)`, `(-1/10000,0,0)` is only 1/10000 apart (squared 1/10^8 ≤ 1/10^6). -/
theorem C6_dedup_counterexample :
    dedup [((0:ℚ), (0:ℚ), (0:ℚ)), ((1:ℚ)/1000, 0, 0), ((-1:ℚ)/10000, 0, 0)] =
      [((0:ℚ), (0:ℚ), (0:ℚ)), ((-1:ℚ)/10000, (0:ℚ), (0:ℚ))] ∧
      get_dist_sq ((0:ℚ), (0:ℚ), (0:ℚ)) ((-1:ℚ)/10000, (0:ℚ), (0:ℚ)) ≤
        1 / 1000000 :=
  ⟨by decide, by decide⟩

lemma dedupGo_mem {rest : List Point} :
    ∀ {prev q : Point}, q ∈ dedupGo prev rest →
      ∃ i, ∃ hi : i < rest.length, rest.get ⟨i, hi⟩ = q ∧
        1 / 1000000 <
          get_dist_sq ((prev :: rest).get ⟨i, Nat.lt_succ_of_lt hi⟩) q := by
  induction rest with
  | nil =>
    intro prev q h
    simp [dedupGo] at h
  | cons a as ih =>
    intro prev q h
    rw [dedupGo] at h
    split at h
    · rename_i hgt
      rcases List.mem_cons.mp h with rfl | h'
      · exact ⟨0, Nat.succ_pos _, rfl, hgt⟩
      · obtain ⟨i, hi, he, hd⟩ := @ih a q h'
        exact ⟨i + 1, Nat.succ_lt_succ hi, he, hd⟩
    · obtain ⟨i, hi, he, hd⟩ := @ih a q h
      exact ⟨i + 1, Nat.succ_lt_succ hi, he, hd⟩

/-- C6 (amended): the first input waypoint is always retained, and every
retained waypoint other than the first exceeded the `1e-3` threshold
against its immediate predecessor in the ORIGINAL input — not necessarily
against its predecessor in the retained sequence. -/
theorem C6_dedup_amended (l : List Point) :
    (dedup l).head? = l.head? ∧
      ∀ q ∈ (dedup l).tail, ∃ i, ∃ h : i + 1 < l.length,
        l.get ⟨i + 1, h⟩ = q ∧
          1 / 1000000 < get_dist_sq (l.get ⟨i, by omega⟩) q := by
  cases l with
  | nil => exact ⟨rfl, by intro q hq; simp [dedup] at hq⟩
  | cons p rest =>
    refine ⟨rfl, ?_⟩
    intro q hq
    have hq' : q ∈ dedupGo p rest := hq
    obtain ⟨i, hi, he, hd⟩ := dedupGo_mem hq'
    exact ⟨i, Nat.succ_lt_succ hi, he, hd⟩

/-- C6 witness: on the two-point input the retained second point is
further than the threshold from its original predecessor. -/
theorem C6_dedup_amended_witness :
    ∃ i, ∃ h : i + 1 <
        ([((0:ℚ), (0:ℚ), (0:ℚ)), ((1:ℚ), (0:ℚ), (0:ℚ))] : List Point).length,
      ([((0:ℚ), (0:ℚ), (0:ℚ)), ((1:ℚ), (0:ℚ), (0:ℚ))] : List Point).get
          ⟨i + 1, h⟩ = ((1:ℚ), (0:ℚ), (0:ℚ)) ∧
        1 / 1000000 < get_dist_sq
          (([((0:ℚ), (0:ℚ), (0:ℚ)), ((1:ℚ), (0:ℚ), (0:ℚ))] : List Point).get
            ⟨i, by omega⟩) ((1:ℚ), (0:ℚ), (0:ℚ)) :=
  (C6_dedup_amended [((0:ℚ), (0:ℚ), (0:ℚ)), ((1:ℚ), (0:ℚ), (0:ℚ))]).2
    ((1:ℚ), (0:ℚ), (0:ℚ)) (by decide)

/-- C7 as stated is false: the closed-set key is the coordinates rounded
to the fixed one-decimal resolution, not to the configured step size.  At
step 1/2 the coordinate 13/50 = 0.26 keys to 3/10, while the nearest
multiple of the step is 1/2. -/
theorem C7_key_resolution_counterexample :
    node_key ((13:ℚ)/50, 0, 0) ≠ roundToRes ((1:ℚ)/2) ((13:ℚ)/50, 0, 0) := by
  decide

lemma roundHalfEven_abs (x : ℚ) : |(roundHalfEven x : ℚ) - x| ≤ 1 / 2 := by
  have hfl : (⌊x⌋ : ℚ) ≤ x := Int.floor_le x
  have hfu : x < (⌊x⌋ : ℚ) + 1 := Int.lt_floor_add_one x
  unfold roundHalfEven
  split
  · rename_i h1
    rw [abs_sub_comm, abs_of_nonneg (by linarith)]
    linarith
  · rename_i h1
    split
    · rename_i h2
      push_cast
      rw [abs_of_nonneg (by linarith)]
      linarith
    · rename_i h2
      have heq : x - (⌊x⌋ : ℚ) = 1 / 2 := le_antisymm (not_lt.mp h2) (not_lt.mp h1)
      split
      · rw [abs_sub_comm, abs_of_nonneg (by linarith)]
        linarith
      · push_cast
        rw [abs_of_nonneg (by linarith)]
        linarith

lemma round1_spec (q : ℚ) :
    ∃ z : ℤ, round1 q = (z : ℚ) / 10 ∧ |round1 q - q| ≤ 1 / 20 := by
  refine ⟨roundHalfEven (10 * q), rfl, ?_⟩
  have habs := roundHalfEven_abs (10 * q)
  have heq : round1 q - q = ((roundHalfEven (10 * q) : ℚ) - 10 * q) / 10 := by
    unfold round1
    ring
  rw [heq, abs_div]
  rw [abs_of_nonneg (by norm_num : (0:ℚ) ≤ 10)]
  linarith

/-- C7 (amended): the discretized key of each extracted (non-goal-snap)
node is its coordinates rounded to the FIXED one-decimal resolution 0.1 —
each key coordinate is an integer multiple of 1/10 within 1/20 of the
node's coordinate — independent of the configured step size; if that key
is already in the ClosedSet the loop continues on the remaining open list
without expanding the node, and otherwise the key is inserted and the node
expanded. -/
theorem C7_closedset_key_amended {env : Env} {goal : Point} {s : ℚ}
    {sqrtQ : ℚ → ℚ} {fuel : Nat} {opn : List Node} {closed : List Point}
    {cur : Node} {rest : List Node}
    (hpop : popMin opn = some (cur, rest))
    (hng : ¬goalNear s goal cur.pos) :
    ((∃ z : ℤ, (node_key cur.pos).1 = (z : ℚ) / 10 ∧
        |(node_key cur.pos).1 - cur.pos.1| ≤ 1 / 20) ∧
      (∃ z : ℤ, (node_key cur.pos).2.1 = (z : ℚ) / 10 ∧
        |(node_key cur.pos).2.1 - cur.pos.2.1| ≤ 1 / 20) ∧
      (∃ z : ℤ, (node_key cur.pos).2.2 = (z : ℚ) / 10 ∧
        |(node_key cur.pos).2.2 - cur.pos.2.2| ≤ 1 / 20)) ∧
    (node_key cur.pos ∈ closed →
      aStarLoop env goal s sqrtQ (fuel + 1) opn closed =
        aStarLoop env goal s sqrtQ fuel rest closed) ∧
    (node_key cur.pos ∉ closed →
      aStarLoop env goal s sqrtQ (fuel + 1) opn closed =
        aStarLoop env goal s sqrtQ fuel
          (rest ++ expand env goal s sqrtQ cur)
          (node_key cur.pos :: closed)) := by
  refine ⟨⟨round1_spec _, round1_spec _, round1_spec _⟩, ?_, ?_⟩
  · intro hk
    simp only [aStarLoop, hpop]
    rw [if_neg hng, if_pos hk]
  · intro hk
    simp only [aStarLoop, hpop]
    rw [if_neg hng, if_neg hk]

/-- C7 witness: one concrete extraction from a singleton open list with an
empty closed set. -/
theorem C7_closedset_key_amended_witness :
    ((∃ z : ℤ, (node_key (Node.root ((13:ℚ)/50) 0 0 0 0 0).pos).1 =
        (z : ℚ) / 10 ∧
        |(node_key (Node.root ((13:ℚ)/50) 0 0 0 0 0).pos).1 -
          (Node.root ((13:ℚ)/50) 0 0 0 0 0).pos.1| ≤ 1 / 20) ∧
      (∃ z : ℤ, (node_key (Node.root ((13:ℚ)/50) 0 0 0 0 0).pos).2.1 =
        (z : ℚ) / 10 ∧
        |(node_key (Node.root ((13:ℚ)/50) 0 0 0 0 0).pos).2.1 -
          (Node.root ((13:ℚ)/50) 0 0 0 0 0).pos.2.1| ≤ 1 / 20) ∧
      (∃ z : ℤ, (node_key (Node.root ((13:ℚ)/50) 0 0 0 0 0).pos).2.2 =
        (z : ℚ) / 10 ∧
        |(node_key (Node.root ((13:ℚ)/50) 0 0 0 0 0).pos).2.2 -
          (Node.root ((13:ℚ)/50) 0 0 0 0 0).pos.2.2| ≤ 1 / 20)) ∧
    (node_key (Node.root ((13:ℚ)/50) 0 0 0 0 0).pos ∈ ([] : List Point) →
      aStarLoop envFree ((5:ℚ), (5:ℚ), (5:ℚ)) ((1:ℚ)/2) id 1
          [Node.root ((13:ℚ)/50) 0 0 0 0 0] [] =
        aStarLoop envFree ((5:ℚ), (5:ℚ), (5:ℚ)) ((1:ℚ)/2) id 0 [] []) ∧
    (node_key (Node.root ((13:ℚ)/50) 0 0 0 0 0).pos ∉ ([] : List Point) →
      aStarLoop envFree ((5:ℚ), (5:ℚ), (5:ℚ)) ((1:ℚ)/2) id 1
          [Node.root ((13:ℚ)/50) 0 0 0 0 0] [] =
        aStarLoop envFree ((5:ℚ), (5:ℚ), (5:ℚ)) ((1:ℚ)/2) id 0
          ([] ++ expand envFree ((5:ℚ), (5:ℚ), (5:ℚ)) ((1:ℚ)/2) id
            (Node.root ((13:ℚ)/50) 0 0 0 0 0))
          [node_key (Node.root ((13:ℚ)/50) 0 0 0 0 0).pos]) :=
  @C7_closedset_key_amended envFree ((5:ℚ), (5:ℚ), (5:ℚ)) ((1:ℚ)/2) id 0
    [Node.root ((13:ℚ)/50) 0 0 0 0 0] [] (Node.root ((13:ℚ)/50) 0 0 0 0 0) []
    (by decide) (by decide)

lemma cumsumFrom_length (acc : ℚ) (l : List ℚ) :
    (cumsumFrom acc l).length = l.length := by
  induction l generalizing acc with
  | nil => rfl
  | cons x xs ih => simp [cumsumFrom, ih]

lemma cumsumFrom_chain {l : List ℚ} (hl : ∀ x ∈ l, 0 < x) :
    ∀ acc : ℚ, (acc :: cumsumFrom acc l).Chain' (· < ·) := by
  induction l with
  | nil =>
    intro acc
    simp [cumsumFrom]
  | cons x xs ih =>
    intro acc
    rw [cumsumFrom]
    refine List.Chain'.cons ?_ (ih (fun y hy => hl y (List.mem_cons_of_mem x hy)) (acc + x))
    have := hl x (List.mem_cons_self x xs)
    linarith

lemma calcKnots_length {sqrtQ : ℚ → ℚ} {p : List Point} {speed : ℚ}
    (hp : 1 ≤ p.length) : (calcKnots sqrtQ p speed).length = p.length := by
  rw [calcKnots]
  simp only [List.length_cons, cumsum, cumsumFrom_length, List.length_map,
    List.length_zip, List.length_tail]
  omega

lemma calcKnots_chain {sqrtQ : ℚ → ℚ} {p : List Point} {speed : ℚ}
    (hsp : 0 < speed) : (calcKnots sqrtQ p speed).Chain' (· < ·) := by
  rw [calcKnots]
  apply cumsumFrom_chain
  intro x hx
  simp only [List.mem_map] at hx
  obtain ⟨d, hd, rfl⟩ := hx
  obtain ⟨pq, _, rfl⟩ := hd
  have hmax : (1 : ℚ) / 1000000 ≤ max (sqrtQ (get_dist_sq pq.1 pq.2)) (1 / 1000000) :=
    le_max_right _ _
  have : (0 : ℚ) < max (sqrtQ (get_dist_sq pq.1 pq.2)) (1 / 1000000) := by linarith
  exact div_pos this hsp

lemma chain'_zero_lt_getLast {l : List ℚ} {b : ℚ}
    (hc : ((0 : ℚ) :: l).Chain' (· < ·)) (hb : l.getLast? = some b) : 0 < b := by
  have hpw := List.chain'_iff_pairwise.mp hc
  have hmem : b ∈ l := List.mem_of_mem_getLast? hb
  exact List.rel_of_pairwise_cons hpw hmem

lemma mkTG_path (sqrtQ : ℚ → ℚ) (path : List Point) (speed : ℚ) :
    (mkTrajectoryGenerator sqrtQ path speed).path = dedup path := by
  rw [mkTrajectoryGenerator]
  split <;> rfl

lemma mkTG_knots (sqrtQ : ℚ → ℚ) (path : List Point) (speed : ℚ)
    (h2 : 2 ≤ (dedup path).length) :
    (mkTrajectoryGenerator sqrtQ path speed).time_knots =
      calcKnots sqrtQ (dedup path) speed := by
  rw [mkTrajectoryGenerator]
  split
  · rename_i h
    omega
  · rfl

lemma arangeQ_toNat_pos {b st : ℚ} (hb : 0 < b) (hst : 0 < st) :
    ∃ n : ℕ, (⌈b / st⌉).toNat = n + 1 ∧ (⌈b / st⌉ : ℤ) = n + 1 := by
  have hc : 0 < ⌈b / st⌉ := Int.ceil_pos.mpr (div_pos hb hst)
  refine ⟨(⌈b / st⌉).toNat - 1, by omega, by omega⟩

lemma arangeQ_head {b st : ℚ} (hb : 0 < b) (hst : 0 < st) :
    (arangeQ 0 b st).head? = some 0 := by
  obtain ⟨n, hn, _⟩ := arangeQ_toNat_pos hb hst
  rw [arangeQ]
  simp only [sub_zero, hn, List.range_succ_eq_map, List.map_cons, List.head?_cons,
    Option.some.injEq]
  norm_num

lemma arangeQ_getLast {b st : ℚ} (hb : 0 < b) (hst : 0 < st) :
    ∃ lastv : ℚ, (arangeQ 0 b st).getLast? = some lastv ∧ lastv < b := by
  obtain ⟨n, hn, hz⟩ := arangeQ_toNat_pos hb hst
  refine ⟨0 + (n : ℚ) * st, ?_, ?_⟩
  · have he : arangeQ 0 b st =
        ((List.range n).map fun k : ℕ => 0 + (k : ℚ) * st)
          ++ [0 + (n : ℚ) * st] := by
      rw [arangeQ, sub_zero, hn, List.range_succ, List.map_append]
      rfl
    rw [he]
    exact List.getLast?_concat _
  · have hceil : (⌈b / st⌉ : ℚ) < b / st + 1 := Int.ceil_lt_add_one _
    have hcast : (n : ℚ) = (⌈b / st⌉ : ℚ) - 1 := by
      rw_mod_cast [hz]
      push_cast
      ring
    have hlt : (n : ℚ) < b / st := by
      rw [hcast]
      linarith
    have := (lt_div_iff hst).mp hlt
    linarith

lemma arangeQ_get {b st : ℚ} (j : ℕ) (hj : j < (arangeQ 0 b st).length) :
    (arangeQ 0 b st).get ⟨j, hj⟩ = (j : ℚ) * st := by
  have he : (arangeQ 0 b st).get ⟨j, hj⟩ =
      ((List.range (⌈(b - 0) / st⌉).toNat).map
        fun k : ℕ => (0 : ℚ) + (k : ℚ) * st).get ⟨j, hj⟩ := rfl
  rw [he, List.get_eq_getElem, List.getElem_map, List.getElem_range]
  ring

lemma arangeQ_length_eq {b st : ℚ} :
    (arangeQ 0 b st).length = (⌈(b - 0) / st⌉).toNat := by
  rw [arangeQ]
  simp

lemma arangeQ_chain {b st : ℚ} (hst : 0 < st) :
    (arangeQ 0 b st).Chain' (· < ·) := by
  rw [List.chain'_iff_get]
  intro i hi
  rw [arangeQ_get i (by omega), arangeQ_get (i + 1) (by omega)]
  have hc : (i : ℚ) < ((i + 1 : ℕ) : ℚ) := by exact_mod_cast Nat.lt_succ_self i
  exact mul_lt_mul_of_pos_right hc hst

lemma arangeQ_lt_stop {b st : ℚ} (hst : 0 < st) (j : ℕ)
    (hj : j < (arangeQ 0 b st).length) : (arangeQ 0 b st).get ⟨j, hj⟩ < b := by
  rw [arangeQ_get j hj]
  have hlen : j < (⌈(b - 0) / st⌉).toNat := by
    have := @arangeQ_length_eq b st
    omega
  have hjz : (j : ℤ) + 1 ≤ ⌈(b - 0) / st⌉ := by omega
  rw [sub_zero] at hjz
  have hcl : (j : ℚ) + 1 ≤ (⌈b / st⌉ : ℚ) := by exact_mod_cast hjz
  have hcc : (⌈b / st⌉ : ℚ) < b / st + 1 := Int.ceil_lt_add_one _
  have hfin : (j : ℚ) < b / st := by linarith
  exact (lt_div_iff hst).mp hfin

lemma cons_zero_getLast_pos {l : List ℚ}
    (hchain : ((0 : ℚ) :: l).Chain' (· < ·)) (hne : l ≠ []) :
    ∃ total : ℚ, ((0 : ℚ) :: l).getLast? = some total ∧ 0 < total := by
  obtain ⟨total, htot⟩ :=
    Option.isSome_iff_exists.mp (List.getLast?_isSome.mpr hne)
  refine ⟨total, ?_, chain'_zero_lt_getLast hchain htot⟩
  cases l with
  | nil => exact absurd rfl hne
  | cons a as =>
    rw [List.getLast?_cons_cons]
    exact htot

lemma calcKnots_getLast_pos {sqrtQ : ℚ → ℚ} {p : List Point} {speed : ℚ}
    (hsp : 0 < speed) (h2 : 2 ≤ p.length) :
    ∃ total : ℚ, (calcKnots sqrtQ p speed).getLast? = some total ∧ 0 < total := by
  have hchain := @calcKnots_chain sqrtQ p speed hsp
  have hlen := @calcKnots_length sqrtQ p speed (by omega)
  rw [calcKnots] at hchain hlen ⊢
  apply cons_zero_getLast_pos hchain
  intro hnil
  rw [hnil] at hlen
  simp at hlen
  omega

lemma solve_eq_of {tg : TrajectoryGenerator} {dt total lastv : ℚ}
    (hp : ¬tg.path.length < 2)
    (ht : tg.time_knots.getLast? = some total)
    (ha : (arangeQ 0 total dt).getLast? = some lastv)
    (hlt : lastv < total) :
    tg.solve dt = some (arangeQ 0 total dt ++ [total],
      (arangeQ 0 total dt ++ [total]).map (cs_x tg),
      (arangeQ 0 total dt ++ [total]).map (cs_y tg),
      (arangeQ 0 total dt ++ [total]).map (cs_z tg)) := by
  rw [TrajectoryGenerator.solve, if_neg hp]
  split
  · rename_i hnone
    rw [ht] at hnone
    simp at hnone
  · rename_i t hsome
    rw [ht] at hsome
    injection hsome with hsome
    subst hsome
    split
    · rename_i hnone
      rw [ha] at hnone
      simp at hnone
    · rename_i lv hsome2
      rw [ha] at hsome2
      injection hsome2 with hsome2
      subst hsome2
      rw [if_pos hlt]

lemma solve_spec {sqrtQ : ℚ → ℚ} {path : List Point} {speed dt : ℚ}
    (h2 : 2 ≤ (dedup path).length) (hsp : 0 < speed) (hdt : 0 < dt) :
    ∃ total : ℚ, 0 < total ∧
      (mkTrajectoryGenerator sqrtQ path speed).time_knots.getLast? =
        some total ∧
      (mkTrajectoryGenerator sqrtQ path speed).solve dt =
        some (arangeQ 0 total dt ++ [total],
          (arangeQ 0 total dt ++ [total]).map
            (cs_x (mkTrajectoryGenerator sqrtQ path speed)),
          (arangeQ 0 total dt ++ [total]).map
            (cs_y (mkTrajectoryGenerator sqrtQ path speed)),
          (arangeQ 0 total dt ++ [total]).map
            (cs_z (mkTrajectoryGenerator sqrtQ path speed))) := by
  obtain ⟨total, htot, hpos⟩ :=
    @calcKnots_getLast_pos sqrtQ (dedup path) speed hsp h2
  have hklast : (mkTrajectoryGenerator sqrtQ path speed).time_knots.getLast? =
      some total := by
    rw [mkTG_knots sqrtQ path speed h2]
    exact htot
  obtain ⟨lastv, hlv, hlt⟩ := arangeQ_getLast hpos hdt
  exact ⟨total, hpos, hklast,
    solve_eq_of (by rw [mkTG_path]; omega) hklast hlv hlt⟩

/-- C4: for every fitted trajectory (at least two deduplicated waypoints,
positive average speed) and every positive `dt`, the timestamp array of
`solve(dt)` ends with exactly the final knot time. -/
theorem C4_last_sample_time_is_final_knot {sqrtQ : ℚ → ℚ}
    {path : List Point} {speed dt : ℚ} (h2 : 2 ≤ (dedup path).length)
    (hsp : 0 < speed) (hdt : 0 < dt) :
    ∃ t x y z, (mkTrajectoryGenerator sqrtQ path speed).solve dt =
        some (t, x, y, z) ∧
      t.getLast? =
        (mkTrajectoryGenerator sqrtQ path speed).time_knots.getLast? := by
  obtain ⟨total, hpos, hklast, hsolve⟩ := solve_spec h2 hsp hdt
  refine ⟨_, _, _, _, hsolve, ?_⟩
  rw [hklast, List.getLast?_concat]

/-- C4 witness: waypoints (0,0,0) and (3,0,0) at unit speed, sampled with
dt = 1. -/
theorem C4_last_sample_time_is_final_knot_witness :
    ∃ t x y z, (mkTrajectoryGenerator id
        [((0:ℚ), (0:ℚ), (0:ℚ)), ((3:ℚ), (0:ℚ), (0:ℚ))] 1).solve 1 =
        some (t, x, y, z) ∧
      t.getLast? = (mkTrajectoryGenerator id
        [((0:ℚ), (0:ℚ), (0:ℚ)), ((3:ℚ), (0:ℚ), (0:ℚ))] 1).time_knots.getLast? :=
  @C4_last_sample_time_is_final_knot id
    [((0:ℚ), (0:ℚ), (0:ℚ)), ((3:ℚ), (0:ℚ), (0:ℚ))] 1 1
    (by decide) (by decide) (by decide)

/-- C10: for every fitted trajectory (at least two deduplicated waypoints,
positive average speed) and every positive `dt`, `solve(dt)` returns four
arrays of identical length whose timestamp array is strictly increasing
and starts at exactly 0. -/
theorem C10_solve_shapes {sqrtQ : ℚ → ℚ} {path : List Point} {speed dt : ℚ}
    (h2 : 2 ≤ (dedup path).length) (hsp : 0 < speed) (hdt : 0 < dt) :
    ∃ t x y z, (mkTrajectoryGenerator sqrtQ path speed).solve dt =
        some (t, x, y, z) ∧
      x.length = t.length ∧ y.length = t.length ∧ z.length = t.length ∧
      t.Chain' (· < ·) ∧ t.head? = some 0 := by
  obtain ⟨total, hpos, hklast, hsolve⟩ := solve_spec h2 hsp hdt
  refine ⟨_, _, _, _, hsolve, by simp, by simp, by simp, ?_, ?_⟩
  · rw [List.chain'_append]
    refine ⟨arangeQ_chain hdt, List.chain'_singleton _, ?_⟩
    intro x hx y hy
    simp only [List.head?_cons, Option.mem_def, Option.some.injEq] at hy
    obtain ⟨lastv, hlv, hlt⟩ := arangeQ_getLast hpos hdt
    rw [hlv] at hx
    simp only [Option.mem_def, Option.some.injEq] at hx
    rw [← hx, ← hy] at *
    rw [← hx, ← hy]
    exact hlt
  · rw [List.head?_append, arangeQ_head hpos hdt]
    rfl

/-- C10 witness: waypoints (0,0,0) and (3,0,0) at unit speed, sampled with
dt = 1. -/
theorem C10_solve_shapes_witness :
    ∃ t x y z, (mkTrajectoryGenerator id
        [((0:ℚ), (0:ℚ), (0:ℚ)), ((3:ℚ), (0:ℚ), (0:ℚ))] 1).solve 1 =
        some (t, x, y, z) ∧
      x.length = t.length ∧ y.length = t.length ∧ z.length = t.length ∧
      t.Chain' (· < ·) ∧ t.head? = some 0 :=
  @C10_solve_shapes id [((0:ℚ), (0:ℚ), (0:ℚ)), ((3:ℚ), (0:ℚ), (0:ℚ))] 1 1
    (by decide) (by decide) (by decide)

lemma hermiteEval_left (t0 y0 m0 t1 y1 m1 : ℚ) :
    hermiteEval t0 y0 m0 t1 y1 m1 t0 = y0 := by
  rw [hermiteEval]
  have he : (t0 - t0) / (t1 - t0) = 0 := by rw [sub_self, zero_div]
  rw [he, hermiteU]
  ring

lemma hermiteEval_right (t0 y0 m0 t1 y1 m1 : ℚ) (hne : t0 ≠ t1) :
    hermiteEval t0 y0 m0 t1 y1 m1 t1 = y1 := by
  rw [hermiteEval]
  have he : (t1 - t0) / (t1 - t0) = 1 := div_self (sub_ne_zero.mpr (Ne.symm hne))
  rw [he, hermiteU]
  ring

lemma evalSegs_at_knot :
    ∀ (l : List (ℚ × ℚ × ℚ)), l.Pairwise (fun a b => a.1 < b.1) →
      ∀ (i : ℕ) (hi : i < l.length),
        evalSegs l (l.get ⟨i, hi⟩).1 = (l.get ⟨i, hi⟩).2.1 := by
  intro l
  induction l with
  | nil =>
    intro _ i hi
    simp at hi
  | cons a l ih =>
    intro hpw i hi
    cases l with
    | nil =>
      cases i with
      | zero => rfl
      | succ n => simp at hi
    | cons b rest =>
      have hab : a.1 < b.1 :=
        (List.pairwise_cons.mp hpw).1 b (List.mem_cons_self b rest)
      have hpw' : (b :: rest).Pairwise (fun a b => a.1 < b.1) :=
        (List.pairwise_cons.mp hpw).2
      cases i with
      | zero =>
        show evalSegs (a :: b :: rest) a.1 = a.2.1
        rw [evalSegs, if_pos (Or.inl hab)]
        exact hermiteEval_left _ _ _ _ _ _
      | succ j =>
        have hj : j < (b :: rest).length := by simpa using hi
        show evalSegs (a :: b :: rest) ((b :: rest).get ⟨j, hj⟩).1 =
          ((b :: rest).get ⟨j, hj⟩).2.1
        cases rest with
        | nil =>
          cases j with
          | zero =>
            show evalSegs [a, b] b.1 = b.2.1
            rw [evalSegs, if_pos (Or.inr rfl)]
            exact hermiteEval_right _ _ _ _ _ _ (ne_of_lt hab)
          | succ k => simp at hj
        | cons c rest' =>
          have htge : b.1 ≤ ((b :: c :: rest').get ⟨j, hj⟩).1 := by
            cases j with
            | zero => exact le_refl _
            | succ k =>
              have hk : k < (c :: rest').length := by simpa using hj
              have hmem : (c :: rest').get ⟨k, hk⟩ ∈ c :: rest' :=
                List.get_mem _ _ hk
              exact le_of_lt ((List.pairwise_cons.mp hpw').1 _ hmem)
          rw [evalSegs, if_neg (by push_neg; exact ⟨htge, by simp⟩)]
          exact ih hpw' j hj

lemma thomasFwd_length (rows : List (ℚ × ℚ × ℚ × ℚ)) :
    ∀ cp dp, (thomasFwd rows cp dp).length = rows.length := by
  induction rows with
  | nil =>
    intro _ _
    rfl
  | cons r rest ih =>
    intro cp dp
    obtain ⟨a, b, c, d⟩ := r
    simp [thomasFwd, ih]

lemma thomasBack_length (l : List (ℚ × ℚ)) :
    ∀ x, (thomasBack l x).length = l.length := by
  induction l with
  | nil =>
    intro _
    rfl
  | cons p rest ih =>
    intro x
    obtain ⟨cp, dp⟩ := p
    simp [thomasBack, ih]

lemma slopes_length {ts ys : List ℚ} (hlen : ys.length = ts.length) :
    ts.length ≤ (slopes ts ys).length := by
  rw [slopes]
  simp only [List.length_cons, List.length_append, List.length_singleton,
    thomasBack_length, List.length_reverse, thomasFwd_length, List.length_map,
    List.length_zip, List.length_tail, diffs, hlen]
  omega

lemma zipTriples_length {ts ys ms : List ℚ} (h1 : ys.length = ts.length)
    (h2 : ts.length ≤ ms.length) : (zipTriples ts ys ms).length = ts.length := by
  rw [zipTriples]
  simp only [List.length_zip, h1]
  omega

lemma zipTriples_get {ts ys ms : List ℚ} {i : ℕ}
    (hts : i < ts.length) (hys : i < ys.length) (hms : i < ms.length)
    (h : i < (zipTriples ts ys ms).length) :
    (zipTriples ts ys ms).get ⟨i, h⟩ =
      (ts.get ⟨i, hts⟩, ys.get ⟨i, hys⟩, ms.get ⟨i, hms⟩) := by
  rw [List.get_eq_getElem, List.get_eq_getElem, List.get_eq_getElem,
    List.get_eq_getElem]
  simp [zipTriples, List.getElem_zip]

lemma zipTriples_pairwise (ts ys ms : List ℚ) (hch : ts.Chain' (· < ·)) :
    (zipTriples ts ys ms).Pairwise (fun a b => a.1 < b.1) := by
  have hpw : ts.Pairwise (· < ·) := List.chain'_iff_pairwise.mp hch
  rw [List.pairwise_iff_getElem] at hpw ⊢
  intro i j hi hj hij
  have hlen : (zipTriples ts ys ms).length ≤ ts.length := by
    rw [zipTriples]
    simp only [List.length_zip]
    omega
  have hts_i : i < ts.length := by omega
  have hts_j : j < ts.length := by omega
  have hz : (zipTriples ts ys ms).length ≤ (ys.zip ms).length := by
    rw [zipTriples]
    simp only [List.length_zip]
    omega
  have hz_i : i < (ys.zip ms).length := by omega
  have hz_j : j < (ys.zip ms).length := by omega
  have e1 : (zipTriples ts ys ms)[i] =
      (ts[i], (ys.zip ms)[i]) := by
    simp [zipTriples, List.getElem_zip]
  have e2 : (zipTriples ts ys ms)[j] =
      (ts[j], (ys.zip ms)[j]) := by
    simp [zipTriples, List.getElem_zip]
  rw [e1, e2]
  exact hpw i j hts_i hts_j hij

lemma CubicSpline_clamped_at_knot {ts ys : List ℚ}
    (hch : ts.Chain' (· < ·)) (hlen : ys.length = ts.length)
    (i : ℕ) (hit : i < ts.length) (hiy : i < ys.length) :
    CubicSpline_clamped ts ys (ts.get ⟨i, hit⟩) = ys.get ⟨i, hiy⟩ := by
  have hms : ts.length ≤ (slopes ts ys).length := slopes_length hlen
  have hlz : (zipTriples ts ys (slopes ts ys)).length = ts.length :=
    zipTriples_length hlen hms
  have hiz : i < (zipTriples ts ys (slopes ts ys)).length := by omega
  have hpw := zipTriples_pairwise ts ys (slopes ts ys) hch
  have hknot := evalSegs_at_knot _ hpw i hiz
  have hget := zipTriples_get hit hiy (by omega) hiz
  rw [CubicSpline_clamped]
  rw [hget] at hknot
  simpa using hknot

/-- C3: for every fitted trajectory (at least two deduplicated waypoints,
positive average speed) and every knot index, each of the three clamped
axis splines evaluated at `TimeKnots[i]` reproduces `waypoint[i]`'s
coordinate on that axis exactly. -/
theorem C3_spline_interpolates_knots {sqrtQ : ℚ → ℚ} {path : List Point}
    {speed : ℚ} (h2 : 2 ≤ (dedup path).length) (hsp : 0 < speed) (i : ℕ)
    (hik : i < (mkTrajectoryGenerator sqrtQ path speed).time_knots.length)
    (hip : i < (mkTrajectoryGenerator sqrtQ path speed).path.length) :
    cs_x (mkTrajectoryGenerator sqrtQ path speed)
        ((mkTrajectoryGenerator sqrtQ path speed).time_knots.get ⟨i, hik⟩) =
      ((mkTrajectoryGenerator sqrtQ path speed).path.get ⟨i, hip⟩).1 ∧
    cs_y (mkTrajectoryGenerator sqrtQ path speed)
        ((mkTrajectoryGenerator sqrtQ path speed).time_knots.get ⟨i, hik⟩) =
      ((mkTrajectoryGenerator sqrtQ path speed).path.get ⟨i, hip⟩).2.1 ∧
    cs_z (mkTrajectoryGenerator sqrtQ path speed)
        ((mkTrajectoryGenerator sqrtQ path speed).time_knots.get ⟨i, hik⟩) =
      ((mkTrajectoryGenerator sqrtQ path speed).path.get ⟨i, hip⟩).2.2 := by
  have hch : (mkTrajectoryGenerator sqrtQ path speed).time_knots.Chain'
      (· < ·) := by
    rw [mkTG_knots sqrtQ path speed h2]
    exact calcKnots_chain hsp
  have hkl : (mkTrajectoryGenerator sqrtQ path speed).time_knots.length =
      (mkTrajectoryGenerator sqrtQ path speed).path.length := by
    rw [mkTG_knots sqrtQ path speed h2, mkTG_path]
    exact @calcKnots_length sqrtQ (dedup path) speed (by omega)
  refine ⟨?_, ?_, ?_⟩
  · have h := CubicSpline_clamped_at_knot hch
      (by simp [hkl] :
        ((mkTrajectoryGenerator sqrtQ path speed).path.map fun p => p.1).length =
          (mkTrajectoryGenerator sqrtQ path speed).time_knots.length)
      i hik (by simp; omega)
    rw [cs_x, h, List.get_eq_getElem, List.getElem_map, List.get_eq_getElem]
  · have h := CubicSpline_clamped_at_knot hch
      (by simp [hkl] :
        ((mkTrajectoryGenerator sqrtQ path speed).path.map fun p => p.2.1).length =
          (mkTrajectoryGenerator sqrtQ path speed).time_knots.length)
      i hik (by simp; omega)
    rw [cs_y, h, List.get_eq_getElem, List.getElem_map, List.get_eq_getElem]
  · have h := CubicSpline_clamped_at_knot hch
      (by simp [hkl] :
        ((mkTrajectoryGenerator sqrtQ path speed).path.map fun p => p.2.2).length =
          (mkTrajectoryGenerator sqrtQ path speed).time_knots.length)
      i hik (by simp; omega)
    rw [cs_z, h, List.get_eq_getElem, List.getElem_map, List.get_eq_getElem]

/-- C3 witness: waypoints (0,0,0) and (3,0,0) at unit speed give knots
[0, 9]; the splines at the final knot reproduce the final waypoint. -/
theorem C3_spline_interpolates_knots_witness :
    cs_x (mkTrajectoryGenerator id
        [((0:ℚ), (0:ℚ), (0:ℚ)), ((3:ℚ), (0:ℚ), (0:ℚ))] 1)
        ((mkTrajectoryGenerator id
          [((0:ℚ), (0:ℚ), (0:ℚ)), ((3:ℚ), (0:ℚ), (0:ℚ))] 1).time_knots.get
            ⟨1, by decide⟩) =
      ((mkTrajectoryGenerator id
        [((0:ℚ), (0:ℚ), (0:ℚ)), ((3:ℚ), (0:ℚ), (0:ℚ))] 1).path.get
          ⟨1, by decide⟩).1 ∧
    cs_y (mkTrajectoryGenerator id
        [((0:ℚ), (0:ℚ), (0:ℚ)), ((3:ℚ), (0:ℚ), (0:ℚ))] 1)
        ((mkTrajectoryGenerator id
          [((0:ℚ), (0:ℚ), (0:ℚ)), ((3:ℚ), (0:ℚ), (0:ℚ))] 1).time_knots.get
            ⟨1, by decide⟩) =
      ((mkTrajectoryGenerator id
        [((0:ℚ), (0:ℚ), (0:ℚ)), ((3:ℚ), (0:ℚ), (0:ℚ))] 1).path.get
          ⟨1, by decide⟩).2.1 ∧
    cs_z (mkTrajectoryGenerator id
        [((0:ℚ), (0:ℚ), (0:ℚ)), ((3:ℚ), (0:ℚ), (0:ℚ))] 1)
        ((mkTrajectoryGenerator id
          [((0:ℚ), (0:ℚ), (0:ℚ)), ((3:ℚ), (0:ℚ), (0:ℚ))] 1).time_knots.get
            ⟨1, by decide⟩) =
      ((mkTrajectoryGenerator id
        [((0:ℚ), (0:ℚ), (0:ℚ)), ((3:ℚ), (0:ℚ), (0:ℚ))] 1).path.get
          ⟨1, by decide⟩).2.2 :=
  @C3_spline_interpolates_knots id
    [((0:ℚ), (0:ℚ), (0:ℚ)), ((3:ℚ), (0:ℚ), (0:ℚ))] 1
    (by decide) (by decide) 1 (by decide) (by decide)
